import Mathlib

/-!
# Verification of the Binance futures CLI trading bot

Shallow embedding of the bot's core logic — the input validators
(`src/utils.py`), the grid-level calculation and grid executor
(`src/advanced/grid.py`), the TWAP executor (`src/advanced/twap.py`) and the
OCO-style executor (`src/advanced/oco.py`) — together with theorems checking
the natural-language specification against the code.

Prices and quantities are modelled as exact rationals (`ℚ`); Python integers
as `ℤ`.  The exchange client is modelled as a function from the call index to
an optional response: `none` means the submission raises, mirroring the
exception paths of the Python code.  Each executor returns, besides its
result, the full trace of order requests it attempted and (for TWAP) the
sleeps it performed, so that sequencing claims can be stated.
-/

namespace BinanceBot

/-- From `src/advanced/grid.py`, `calculate_grid_levels`:
if `grid_count == 1` return the single midpoint, otherwise
`step = (upper - lower) / (grid_count - 1)` and the list
`[lower + step * i for i in range(grid_count)]`.
Python's `range(n)` is empty for `n ≤ 0`, hence `Int.toNat`. -/
def calculate_grid_levels (lower_price upper_price : ℚ) (grid_count : ℤ) :
    List ℚ :=
  if grid_count = 1 then
    [(lower_price + upper_price) / 2]
  else
    let step := (upper_price - lower_price) / ((grid_count : ℚ) - 1)
    (List.range grid_count.toNat).map (fun (i : ℕ) => lower_price + step * (i : ℚ))

/-- C1: For `L < U` and `N ≥ 2`, `calculate_grid_levels L U N` is the
`N`-element list `L + ((U - L)/(N - 1)) * i` for `i ∈ [0, N)`; it is strictly
increasing, its first element is exactly `L` and its last exactly `U`
(exact rational arithmetic); and for `N = 1` the result is the singleton
`[(L + U) / 2]`. -/
theorem grid_levels_spec (L U : ℚ) (N : ℤ) (hLU : L < U) (hN : 2 ≤ N) :
    calculate_grid_levels L U N =
      (List.range N.toNat).map (fun (i : ℕ) => L + ((U - L) / ((N : ℚ) - 1)) * (i : ℚ)) ∧
    (calculate_grid_levels L U N).length = N.toNat ∧
    ((N.toNat : ℤ) = N) ∧
    List.Pairwise (· < ·) (calculate_grid_levels L U N) ∧
    (calculate_grid_levels L U N).head? = some L ∧
    (calculate_grid_levels L U N).getLast? = some U ∧
    (∀ L' U' : ℚ, calculate_grid_levels L' U' 1 = [(L' + U') / 2]) := by
  have hN1 : N ≠ 1 := by omega
  have hNpos : (0 : ℤ) < N := by omega
  have htn : (N.toNat : ℤ) = N := Int.toNat_of_nonneg (by omega)
  have hNQ : ((N : ℚ)) = (N.toNat : ℚ) := by
    exact_mod_cast htn.symm
  have hNQ2 : (2 : ℚ) ≤ (N : ℚ) := by exact_mod_cast hN
  have hden : (0 : ℚ) < (N : ℚ) - 1 := by linarith
  have hstep : (0 : ℚ) < (U - L) / ((N : ℚ) - 1) :=
    div_pos (by linarith) hden
  have heq : calculate_grid_levels L U N =
      (List.range N.toNat).map (fun (i : ℕ) => L + ((U - L) / ((N : ℚ) - 1)) * (i : ℚ)) := by
    simp only [calculate_grid_levels, if_neg hN1]
  obtain ⟨k, hk⟩ : ∃ k, N.toNat = k + 2 := ⟨N.toNat - 2, by omega⟩
  refine ⟨heq, ?_, htn, ?_, ?_, ?_, ?_⟩
  · rw [heq]; simp
  · rw [heq]
    refine List.Pairwise.map _ ?_ (List.pairwise_lt_range N.toNat)
    intro a b hab
    have : (a : ℚ) < (b : ℚ) := by exact_mod_cast hab
    nlinarith
  · rw [heq, hk]
    have : List.range (k + 2) = 0 :: (List.range (k + 1)).map Nat.succ := by
      rw [List.range_succ_eq_map]
    rw [this]
    simp
  · rw [heq, hk, List.range_succ, List.map_append, List.map_singleton,
      List.getLast?_concat]
    have hcast : ((k + 1 : ℕ) : ℚ) = (N : ℚ) - 1 := by
      rw [hNQ, hk]; push_cast; ring
    have : L + (U - L) / ((N : ℚ) - 1) * ((k + 1 : ℕ) : ℚ) = U := by
      rw [hcast, div_mul_cancel₀ _ (ne_of_gt hden)]; ring
    simp only [this]
  · intro L' U'
    simp [calculate_grid_levels]

/-- Witness for `grid_levels_spec` at `L = 0`, `U = 1`, `N = 2`. -/
theorem grid_levels_spec_witness :
    (calculate_grid_levels 0 1 2).head? = some 0 ∧
    (calculate_grid_levels 0 1 2).getLast? = some 1 :=
  ⟨(grid_levels_spec 0 1 2 (by norm_num) (by norm_num)).2.2.2.2.1,
   (grid_levels_spec 0 1 2 (by norm_num) (by norm_num)).2.2.2.2.2.1⟩

/-- C10: For `grid_count ≤ 0` (validation bypassed),
`calculate_grid_levels` returns the empty list without error: the midpoint
branch covers only `grid_count = 1`, and Python's `range` of a non-positive
count is empty. -/
theorem grid_levels_nonpositive_count (L U : ℚ) (N : ℤ) (hN : N ≤ 0) :
    calculate_grid_levels L U N = [] := by
  have hN1 : N ≠ 1 := by omega
  have h0 : N.toNat = 0 := Int.toNat_of_nonpos hN
  simp [calculate_grid_levels, hN1, h0]

/-- Witness for `grid_levels_nonpositive_count` at `N = -3`. -/
theorem grid_levels_nonpositive_count_witness :
    calculate_grid_levels 5 10 (-3) = [] :=
  grid_levels_nonpositive_count 5 10 (-3) (by norm_num)

/-! ## TWAP executor (`src/advanced/twap.py`) -/

/-- A market order request as built by `execute_twap_strategy`:
`futures_create_order(symbol=…, side=…, type='MARKET', quantity=…)`. -/
structure MarketOrderRequest where
  symbol : String
  side : String
  type : String
  quantity : ℚ
deriving DecidableEq, Repr

/-- The partial-progress context surfaced when a slice submission raises:
the code logs the failure as slice `orders.length + 1` of `num_slices` and
reports `orders.length` slices completed before re-raising. -/
structure SliceError where
  failedSlice : ℕ
  completed : ℕ
  numSlices : ℤ
deriving DecidableEq, Repr

/-- Observable outcome of one TWAP run: the order requests submitted to the
client in order, the sleeps performed (their durations, in call order), and
either the accumulated responses or the propagated failure. -/
structure TwapOutcome (ρ : Type) where
  attempts : List MarketOrderRequest
  sleeps : List ℤ
  result : Except SliceError (List ρ)

/-- The `for i in range(num_slices)` loop of `execute_twap_strategy`:
submit the slice order, append the response, and sleep `interval_seconds`
unless this was the last slice; on a raised submission the loop stops and
the failure propagates with the partial-progress context. -/
def twapLoop {ρ : Type} (client : ℕ → Option ρ) (req : MarketOrderRequest)
    (n : ℕ) (numSlices : ℤ) (interval_seconds : ℤ) :
    ℕ → List MarketOrderRequest → List ℤ → List ρ → TwapOutcome ρ
  | i, attempts, sleeps, orders =>
    if h : i < n then
      match client i with
      | none =>
        ⟨attempts ++ [req], sleeps,
         .error ⟨orders.length + 1, orders.length, numSlices⟩⟩
      | some r =>
        let sleeps' := if i < n - 1 then sleeps ++ [interval_seconds] else sleeps
        twapLoop client req n numSlices interval_seconds
          (i + 1) (attempts ++ [req]) sleeps' (orders ++ [r])
    else
      ⟨attempts, sleeps, .ok orders⟩
termination_by i => n - i

/-- From `src/advanced/twap.py`, `execute_twap_strategy`: compute
`quantity_per_slice = total_quantity / num_slices`, then run the slice loop
over `range(num_slices)`. -/
def execute_twap_strategy {ρ : Type} (client : ℕ → Option ρ)
    (symbol side : String) (total_quantity : ℚ)
    (num_slices interval_seconds : ℤ) : TwapOutcome ρ :=
  let quantity_per_slice := total_quantity / (num_slices : ℚ)
  let req : MarketOrderRequest :=
    ⟨symbol, side, "MARKET", quantity_per_slice⟩
  twapLoop client req num_slices.toNat num_slices interval_seconds 0 [] [] []

/-- Characterisation of `twapLoop` when every remaining submission
succeeds: all remaining slices are submitted, with a sleep after each but
the last, and the responses accumulate in submission order. -/
theorem twapLoop_all_ok {ρ : Type} (client : ℕ → Option ρ)
    (req : MarketOrderRequest) (n : ℕ) (numSlices interval : ℤ) (m : ℕ) :
    ∀ i attempts sleeps orders, n - i ≤ m →
      (∀ j, i ≤ j → j < n → (client j).isSome) →
      ∃ l : List ρ,
        twapLoop client req n numSlices interval i attempts sleeps orders =
          ⟨attempts ++ List.replicate (n - i) req,
           sleeps ++ List.replicate (n - 1 - i) interval,
           .ok (orders ++ l)⟩ ∧
        l.length = n - i ∧
        ∀ k, (hk : k < l.length) → client (i + k) = some (l.get ⟨k, hk⟩) := by
  induction m with
  | zero =>
    intro i attempts sleeps orders him _
    have hge : ¬ i < n := by omega
    refine ⟨[], ?_, by simp only [List.length_nil]; omega,
      by intro k hk; simp at hk⟩
    rw [twapLoop, dif_neg hge]
    have h1 : n - i = 0 := by omega
    have h2 : n - 1 - i = 0 := by omega
    simp [h1, h2]
  | succ m ih =>
    intro i attempts sleeps orders him hok
    by_cases h : i < n
    · have hs : (client i).isSome := hok i le_rfl h
      obtain ⟨r, hr⟩ := Option.isSome_iff_exists.mp hs
      obtain ⟨l', hrun, hlen, hidx⟩ :=
        ih (i + 1)
          (attempts ++ [req])
          (if i < n - 1 then sleeps ++ [interval] else sleeps)
          (orders ++ [r])
          (by omega)
          (fun j hj1 hj2 => hok j (by omega) hj2)
      refine ⟨r :: l', ?_, by simp [hlen]; omega, ?_⟩
      · rw [twapLoop, dif_pos h, hr]
        simp only
        rw [hrun]
        have hrep : List.replicate (n - i) req =
            req :: List.replicate (n - (i + 1)) req := by
          have : n - i = (n - (i + 1)) + 1 := by omega
          rw [this, List.replicate_succ]
        have hatt : (attempts ++ [req]) ++ List.replicate (n - (i + 1)) req =
            attempts ++ List.replicate (n - i) req := by
          rw [hrep, List.append_assoc]; rfl
        have hord : (orders ++ [r]) ++ l' = orders ++ (r :: l') := by
          rw [List.append_assoc]; rfl
        by_cases hsl : i < n - 1
        · have hslrep : List.replicate (n - 1 - i) interval =
              interval :: List.replicate (n - 1 - (i + 1)) interval := by
            have : n - 1 - i = (n - 1 - (i + 1)) + 1 := by omega
            rw [this, List.replicate_succ]
          rw [if_pos hsl, hatt, hord, hslrep, List.append_assoc]
          rfl
        · have h1 : n - 1 - i = 0 := by omega
          have h2 : n - 1 - (i + 1) = 0 := by omega
          rw [if_neg hsl, hatt, hord, h1, h2]
      · intro k hk
        match k with
        | 0 => simpa using hr
        | k' + 1 =>
          have hk' : k' < l'.length := by simpa using hk
          have := hidx k' hk'
          have harith : i + (k' + 1) = (i + 1) + k' := by omega
          rw [harith, this]
          rfl
    · refine ⟨[], ?_, by simp only [List.length_nil]; omega,
        by intro k hk; simp at hk⟩
      rw [twapLoop, dif_neg h]
      have h1 : n - i = 0 := by omega
      have h2 : n - 1 - i = 0 := by omega
      simp [h1, h2]

/-- C2: When every submission succeeds and `num_slices = n > 0`,
`execute_twap_strategy` submits exactly `n` market orders sequentially, each
with the given symbol, side, type `MARKET` and quantity
`total_quantity / n`; it sleeps `interval_seconds` between consecutive
slices but not after the last (`n - 1` sleeps); and it returns the `n`
responses in submission order. -/
theorem twap_all_success {ρ : Type} (client : ℕ → Option ρ)
    (symbol side : String) (Q : ℚ) (n iv : ℤ) (hn : 0 < n)
    (hc : ∀ i, i < n.toNat → (client i).isSome) :
    (execute_twap_strategy client symbol side Q n iv).attempts =
      List.replicate n.toNat ⟨symbol, side, "MARKET", Q / (n : ℚ)⟩ ∧
    (execute_twap_strategy client symbol side Q n iv).sleeps =
      List.replicate (n.toNat - 1) iv ∧
    ∃ l : List ρ,
      (execute_twap_strategy client symbol side Q n iv).result = .ok l ∧
      l.length = n.toNat ∧
      ∀ k, (hk : k < l.length) → client k = some (l.get ⟨k, hk⟩) := by
  obtain ⟨l, hrun, hlen, hidx⟩ :=
    twapLoop_all_ok client ⟨symbol, side, "MARKET", Q / (n : ℚ)⟩
      n.toNat n iv n.toNat 0 [] [] [] (by omega)
      (fun j _ hj2 => hc j hj2)
  have hrw : execute_twap_strategy client symbol side Q n iv =
      twapLoop client ⟨symbol, side, "MARKET", Q / (n : ℚ)⟩
        n.toNat n iv 0 [] [] [] := rfl
  rw [hrw, hrun]
  refine ⟨by simp, by simp, l, by simp, by omega, ?_⟩
  intro k hk
  simpa using hidx k hk

/-- Witness for `twap_all_success`: an always-succeeding client with
`n = 3` slices. -/
theorem twap_all_success_witness :
    (execute_twap_strategy (fun i => some i) "BTCUSDT" "BUY"
        (1/10) 3 7).attempts =
      List.replicate 3 ⟨"BTCUSDT", "BUY", "MARKET", (1/10) / 3⟩ :=
  (twap_all_success (fun i => some i) "BTCUSDT" "BUY" (1/10) 3 7
    (by norm_num) (fun i _ => rfl)).1

/-- Running `twapLoop` over `t` successful slices that all lie strictly
before the final slice advances the state by `t` submissions, `t` sleeps
and `t` responses. -/
theorem twapLoop_prefix_ok {ρ : Type} (client : ℕ → Option ρ)
    (req : MarketOrderRequest) (n : ℕ) (numSlices interval : ℤ) (t : ℕ) :
    ∀ i attempts sleeps orders, i + t < n →
      (∀ j, i ≤ j → j < i + t → (client j).isSome) →
      ∃ os : List ρ, os.length = t ∧
        twapLoop client req n numSlices interval i attempts sleeps orders =
          twapLoop client req n numSlices interval (i + t)
            (attempts ++ List.replicate t req)
            (sleeps ++ List.replicate t interval)
            (orders ++ os) := by
  induction t with
  | zero =>
    intro i attempts sleeps orders _ _
    exact ⟨[], rfl, by simp⟩
  | succ t ih =>
    intro i attempts sleeps orders hit hok
    have hi : i < n := by omega
    have hs : (client i).isSome := hok i le_rfl (by omega)
    obtain ⟨r, hr⟩ := Option.isSome_iff_exists.mp hs
    obtain ⟨os, hoslen, hrun⟩ :=
      ih (i + 1) (attempts ++ [req]) (sleeps ++ [interval]) (orders ++ [r])
        (by omega) (fun j hj1 hj2 => hok j (by omega) (by omega))
    refine ⟨r :: os, by simp [hoslen], ?_⟩
    have harith : i + (t + 1) = (i + 1) + t := by omega
    have e1 : attempts ++ List.replicate (t + 1) req =
        (attempts ++ [req]) ++ List.replicate t req := by
      rw [List.replicate_succ, List.append_assoc]; rfl
    have e2 : sleeps ++ List.replicate (t + 1) interval =
        (sleeps ++ [interval]) ++ List.replicate t interval := by
      rw [List.replicate_succ, List.append_assoc]; rfl
    have e3 : orders ++ (r :: os) = (orders ++ [r]) ++ os := by
      rw [List.append_assoc]; rfl
    rw [twapLoop, dif_pos hi, hr]
    simp only
    have hsl : i < n - 1 := by omega
    rw [if_pos hsl, hrun, harith, e1, e2, e3]

/-- C3: If the client submission at 1-based slice `i` fails (the first
`i - 1` succeed), `execute_twap_strategy` attempts exactly `i` submissions —
none for any later slice — and propagates a failure whose context reports
the failing slice as `i` of `num_slices` with exactly `i - 1` slices
completed; `i - 1` sleeps were performed. -/
theorem twap_failure {ρ : Type} (client : ℕ → Option ρ)
    (symbol side : String) (Q : ℚ) (n iv : ℤ) (i : ℕ)
    (hi1 : 1 ≤ i) (hin : i ≤ n.toNat)
    (hok : ∀ j, j < i - 1 → (client j).isSome)
    (hfail : client (i - 1) = none) :
    (execute_twap_strategy client symbol side Q n iv).attempts =
      List.replicate i ⟨symbol, side, "MARKET", Q / (n : ℚ)⟩ ∧
    (execute_twap_strategy client symbol side Q n iv).sleeps =
      List.replicate (i - 1) iv ∧
    (execute_twap_strategy client symbol side Q n iv).result =
      .error ⟨i, i - 1, n⟩ := by
  obtain ⟨os, hoslen, hrun⟩ :=
    twapLoop_prefix_ok client ⟨symbol, side, "MARKET", Q / (n : ℚ)⟩
      n.toNat n iv (i - 1) 0 [] [] [] (by omega)
      (fun j hj1 hj2 => hok j (by omega))
  have hrw : execute_twap_strategy client symbol side Q n iv =
      twapLoop client ⟨symbol, side, "MARKET", Q / (n : ℚ)⟩
        n.toNat n iv 0 [] [] [] := rfl
  have hlt : i - 1 < n.toNat := by omega
  have hi' : (i - 1) + 1 = i := by omega
  rw [hrw, hrun]
  have hzero : 0 + (i - 1) = i - 1 := by omega
  rw [hzero, twapLoop, dif_pos hlt, hfail]
  refine ⟨?_, ?_, ?_⟩
  · simp only [List.nil_append, ← List.replicate_succ', hi']
  · simp only [List.nil_append]
  · simp only [List.nil_append, hoslen, hi']

/-- Witness for `twap_failure`: the 2nd of 3 submissions fails, so exactly
2 submissions are attempted, 1 slice is completed and the context reports
slice 2 of 3. -/
theorem twap_failure_witness :
    (execute_twap_strategy
        (fun j => if j = 0 then some 7 else none) "BTCUSDT" "SELL"
        (3/10) 3 5).result = .error ⟨2, 1, 3⟩ :=
  (twap_failure (fun j => if j = 0 then some 7 else none) "BTCUSDT" "SELL"
    (3/10) 3 5 2 (by norm_num) (by norm_num)
    (by intro j hj; interval_cases j <;> simp)
    (by simp)).2.2

/-! ## Grid executor (`src/advanced/grid.py`) -/

/-- A limit order request as built by `execute_grid_strategy`:
`futures_create_order(symbol=…, side='BUY', type='LIMIT',
timeInForce='GTC', quantity=…, price=…)`. -/
structure LimitOrderRequest where
  symbol : String
  side : String
  type : String
  timeInForce : String
  quantity : ℚ
  price : ℚ
deriving DecidableEq, Repr

/-- The partial-progress context surfaced when a grid submission raises:
the failing grid is logged as `orders.length + 1` of `grid_count` and
`orders.length` grids are reported placed before re-raising. -/
structure GridError where
  failedGrid : ℕ
  placed : ℕ
  gridCount : ℤ
deriving DecidableEq, Repr

/-- Result of one grid run: either the `ValueError` from
`validate_grid_params`, a mid-sequence submission failure with its
partial-progress context, or the accumulated responses. -/
inductive GridResult (ρ : Type) where
  | validationError
  | submissionError (e : GridError)
  | ok (orders : List ρ)

/-- Observable outcome of one grid run: the limit order requests submitted
to the client in order, and the result. -/
structure GridOutcome (ρ : Type) where
  attempts : List LimitOrderRequest
  result : GridResult ρ

/-- The `for i, price in enumerate(grid_levels)` loop of
`execute_grid_strategy`: submit a limit BUY order at each level in turn
(no sleep between submissions); on a raised submission stop and propagate
the failure with the partial-progress context. -/
def gridLoop {ρ : Type} (client : ℕ → Option ρ)
    (mkReq : ℚ → LimitOrderRequest) (gridCount : ℤ) :
    List ℚ → ℕ → List LimitOrderRequest → List ρ → GridOutcome ρ
  | [], _, attempts, orders => ⟨attempts, .ok orders⟩
  | price :: rest, idx, attempts, orders =>
    match client idx with
    | none =>
      ⟨attempts ++ [mkReq price],
       .submissionError ⟨orders.length + 1, orders.length, gridCount⟩⟩
    | some r =>
      gridLoop client mkReq gridCount rest (idx + 1)
        (attempts ++ [mkReq price]) (orders ++ [r])

/-- From `src/advanced/grid.py`, `execute_grid_strategy`: run
`validate_grid_params` (raising `ValueError` when `lower_price ≥
upper_price` or `grid_count < 2`), compute the grid levels, then place one
limit BUY order per level in ascending order. -/
def execute_grid_strategy {ρ : Type} (client : ℕ → Option ρ)
    (symbol : String) (quantity_per_grid lower_price upper_price : ℚ)
    (grid_count : ℤ) : GridOutcome ρ :=
  if lower_price ≥ upper_price ∨ grid_count < 2 then
    ⟨[], .validationError⟩
  else
    gridLoop client
      (fun price => ⟨symbol, "BUY", "LIMIT", "GTC", quantity_per_grid, price⟩)
      grid_count
      (calculate_grid_levels lower_price upper_price grid_count) 0 [] []

/-- Running `gridLoop` with an all-succeeding client submits exactly one request
per level, in level order. -/
theorem gridLoop_all_ok {ρ : Type} (client : ℕ → Option ρ)
    (mkReq : ℚ → LimitOrderRequest) (gridCount : ℤ) (levels : List ℚ) :
    ∀ idx attempts orders,
      (∀ j, idx ≤ j → j < idx + levels.length → (client j).isSome) →
      ∃ os : List ρ,
        gridLoop client mkReq gridCount levels idx attempts orders =
          ⟨attempts ++ levels.map mkReq, .ok (orders ++ os)⟩ ∧
        os.length = levels.length := by
  induction levels with
  | nil =>
    intro idx attempts orders _
    exact ⟨[], by simp [gridLoop], rfl⟩
  | cons price rest ih =>
    intro idx attempts orders hok
    have hs : (client idx).isSome := hok idx le_rfl (by simp)
    obtain ⟨r, hr⟩ := Option.isSome_iff_exists.mp hs
    obtain ⟨os, hrun, hoslen⟩ :=
      ih (idx + 1) (attempts ++ [mkReq price]) (orders ++ [r])
        (fun j hj1 hj2 => hok j (by omega) (by simp; omega))
    refine ⟨r :: os, ?_, by simp [hoslen]⟩
    rw [gridLoop, hr]
    simp only
    rw [hrun]
    congr 1 <;> simp

/-- Running `gridLoop` into a first client failure, at 1-based position
`i` within the level list, attempts exactly the first `i` levels and
surfaces the context (failing grid `i`, `i - 1` placed). -/
theorem gridLoop_failure {ρ : Type} (client : ℕ → Option ρ)
    (mkReq : ℚ → LimitOrderRequest) (gridCount : ℤ) (levels : List ℚ) :
    ∀ idx attempts orders (i : ℕ), 1 ≤ i → i ≤ levels.length →
      (∀ j, idx ≤ j → j < idx + (i - 1) → (client j).isSome) →
      client (idx + (i - 1)) = none →
      ∃ os : List ρ,
        gridLoop client mkReq gridCount levels idx attempts orders =
          ⟨attempts ++ (levels.take i).map mkReq,
           .submissionError
             ⟨(orders ++ os).length + 1, (orders ++ os).length, gridCount⟩⟩ ∧
        os.length = i - 1 := by
  induction levels with
  | nil =>
    intro idx attempts orders i hi1 hi _ _
    simp at hi
    omega
  | cons price rest ih =>
    intro idx attempts orders i hi1 hi hok hfail
    by_cases hone : i = 1
    · subst hone
      have hf : client idx = none := by simpa using hfail
      refine ⟨[], ?_, rfl⟩
      rw [gridLoop, hf]
      simp
    · have hs : (client idx).isSome := hok idx le_rfl (by omega)
      obtain ⟨r, hr⟩ := Option.isSome_iff_exists.mp hs
      obtain ⟨os, hrun, hoslen⟩ :=
        ih (idx + 1) (attempts ++ [mkReq price]) (orders ++ [r]) (i - 1)
          (by omega) (by simp at hi; omega)
          (fun j hj1 hj2 => hok j (by omega) (by omega))
          (by
            have : idx + 1 + (i - 1 - 1) = idx + (i - 1) := by omega
            rw [this]; exact hfail)
      refine ⟨r :: os, ?_, by simp [hoslen]; omega⟩
      rw [gridLoop, hr]
      simp only
      rw [hrun]
      obtain ⟨i', hi'⟩ : ∃ i', i = i' + 1 := ⟨i - 1, by omega⟩
      subst hi'
      congr 1
      · rw [List.take_succ_cons, List.map_cons, List.append_assoc]
        simp
      · simp

/-- Whatever the client does, every request `gridLoop` submits is built by
`mkReq` from one of the levels (or was already in the accumulator). -/
theorem gridLoop_attempts_shape {ρ : Type} (client : ℕ → Option ρ)
    (mkReq : ℚ → LimitOrderRequest) (gridCount : ℤ) (levels : List ℚ) :
    ∀ idx attempts orders,
      ∀ a ∈ (gridLoop client mkReq gridCount levels idx attempts orders).attempts,
        a ∈ attempts ∨ ∃ p ∈ levels, a = mkReq p := by
  induction levels with
  | nil =>
    intro idx attempts orders a ha
    rw [gridLoop] at ha
    exact Or.inl ha
  | cons price rest ih =>
    intro idx attempts orders a ha
    rw [gridLoop] at ha
    cases hc : client idx with
    | none =>
      rw [hc] at ha
      simp only at ha
      rcases List.mem_append.mp ha with h | h
      · exact Or.inl h
      · exact Or.inr ⟨price, by simp, by simpa using h⟩
    | some r =>
      rw [hc] at ha
      simp only at ha
      rcases ih (idx + 1) (attempts ++ [mkReq price]) (orders ++ [r]) a ha
        with h | ⟨p, hp, hap⟩
      · rcases List.mem_append.mp h with h' | h'
        · exact Or.inl h'
        · exact Or.inr ⟨price, by simp, by simpa using h'⟩
      · exact Or.inr ⟨p, by simp [hp], hap⟩

/-- C4: With validated parameters (`L < U`, `N ≥ 2`),
`execute_grid_strategy` submits one limit order per grid level in strictly
ascending price order, every request being side `BUY`, type `LIMIT`,
`timeInForce = GTC` with the fixed per-grid quantity, whatever the level's
price; `lower = 50000, upper = 52000, count = 5` gives exactly the levels
`[50000, 50500, 51000, 51500, 52000]`; and a submission failure at grid `i`
stops the run after exactly `i` attempts. -/
theorem grid_executor_spec {ρ : Type} (symbol : String) (q L U : ℚ)
    (N : ℤ) (hLU : L < U) (hN : 2 ≤ N) :
    (∀ client : ℕ → Option ρ,
      ∀ a ∈ (execute_grid_strategy client symbol q L U N).attempts,
        a.symbol = symbol ∧ a.side = "BUY" ∧ a.type = "LIMIT" ∧
        a.timeInForce = "GTC" ∧ a.quantity = q) ∧
    (∀ client : ℕ → Option ρ,
      (∀ j, j < N.toNat → (client j).isSome) →
      (execute_grid_strategy client symbol q L U N).attempts.map
          LimitOrderRequest.price =
        calculate_grid_levels L U N ∧
      ∃ os : List ρ,
        (execute_grid_strategy client symbol q L U N).result = .ok os ∧
        os.length = N.toNat) ∧
    List.Pairwise (· < ·) (calculate_grid_levels L U N) ∧
    calculate_grid_levels 50000 52000 5 = [50000, 50500, 51000, 51500, 52000] ∧
    (∀ client : ℕ → Option ρ, ∀ i : ℕ, 1 ≤ i → i ≤ N.toNat →
      (∀ j, j < i - 1 → (client j).isSome) → client (i - 1) = none →
      (execute_grid_strategy client symbol q L U N).attempts.length = i ∧
      (execute_grid_strategy client symbol q L U N).result =
        .submissionError ⟨i, i - 1, N⟩) := by
  have hcond : ¬ (L ≥ U ∨ N < 2) := by
    push_neg
    exact ⟨lt_of_lt_of_le hLU le_rfl, by omega⟩
  have hexec : ∀ client : ℕ → Option ρ,
      execute_grid_strategy client symbol q L U N =
        gridLoop client
          (fun price => ⟨symbol, "BUY", "LIMIT", "GTC", q, price⟩) N
          (calculate_grid_levels L U N) 0 [] [] := by
    intro client
    rw [execute_grid_strategy, if_neg hcond]
  have hlen : (calculate_grid_levels L U N).length = N.toNat :=
    (grid_levels_spec L U N hLU hN).2.1
  refine ⟨?_, ?_, (grid_levels_spec L U N hLU hN).2.2.2.1, ?_, ?_⟩
  · intro client a ha
    rw [hexec client] at ha
    rcases gridLoop_attempts_shape client _ N _ 0 [] [] a ha with h | ⟨p, _, hap⟩
    · simp at h
    · subst hap
      exact ⟨rfl, rfl, rfl, rfl, rfl⟩
  · intro client hok
    obtain ⟨os, hrun, hoslen⟩ :=
      gridLoop_all_ok client
        (fun price => ⟨symbol, "BUY", "LIMIT", "GTC", q, price⟩) N
        (calculate_grid_levels L U N) 0 [] []
        (fun j _ hj2 => hok j (by omega))
    rw [hexec client, hrun]
    refine ⟨?_, os, rfl, by omega⟩
    simp only [List.nil_append, List.map_map]
    have hid : (LimitOrderRequest.price ∘ fun price =>
        (⟨symbol, "BUY", "LIMIT", "GTC", q, price⟩ : LimitOrderRequest)) =
        id := rfl
    rw [hid, List.map_id]
  · have h5 : Int.toNat 5 = 5 := rfl
    have hr : List.range 5 = [0, 1, 2, 3, 4] := by rfl
    norm_num [calculate_grid_levels, h5, hr]
  · intro client i hi1 hiN hok hfail
    obtain ⟨os, hrun, hoslen⟩ :=
      gridLoop_failure client
        (fun price => ⟨symbol, "BUY", "LIMIT", "GTC", q, price⟩) N
        (calculate_grid_levels L U N) 0 [] [] i hi1 (by rw [hlen]; omega)
        (fun j hj1 hj2 => hok j (by omega)) (by simpa using hfail)
    rw [hexec client, hrun]
    constructor
    · rw [List.nil_append, List.length_map, List.length_take, hlen]
      omega
    · simp only [List.nil_append, hoslen]
      have : (i - 1) + 1 = i := by omega
      rw [this]

/-- Witness for `grid_executor_spec` at the spec's concrete grid
(`lower = 50000`, `upper = 52000`, `count = 5`). -/
theorem grid_executor_spec_witness :
    calculate_grid_levels 50000 52000 5 =
      [50000, 50500, 51000, 51500, 52000] :=
  (grid_executor_spec (ρ := ℕ) "BTCUSDT" (1/100) 50000 52000 5
    (by norm_num) (by norm_num)).2.2.2.1

/-! ## OCO-style executor (`src/advanced/oco.py`) -/

/-- A conditional order request as built by `place_oco_style_orders`:
`futures_create_order(symbol=…, side=…, type=…, stopPrice=…,
closePosition='true')`.  The Python call passes no `quantity` keyword, so
the request carries no quantity field. -/
structure CondOrderRequest where
  symbol : String
  side : String
  type : String
  stopPrice : ℚ
  closePosition : String
deriving DecidableEq, Repr

/-- Result of one OCO-style run: the `ValueError` of `main`'s price-logic
check, a propagated submission failure, or the pair of responses. -/
inductive OcoResult (ρ : Type) where
  | validationError
  | submissionError
  | ok (tp sl : ρ)

/-- Observable outcome of one OCO-style run: the conditional order requests
submitted to the client in order, and the result. -/
structure OcoOutcome (ρ : Type) where
  attempts : List CondOrderRequest
  result : OcoResult ρ

/-- From `src/advanced/oco.py`, `place_oco_style_orders`: set
`close_side = side` (never inverted), submit the take-profit conditional
order, then — only if it succeeded — the stop-loss conditional order; both
with `closePosition='true'` and no quantity; a raised submission
propagates immediately. -/
def place_oco_style_orders {ρ : Type} (client : ℕ → Option ρ)
    (symbol side : String)
    (quantity take_profit_price stop_loss_price : ℚ) : OcoOutcome ρ :=
  let close_side := side
  let take_profit_req : CondOrderRequest :=
    ⟨symbol, close_side, "TAKE_PROFIT_MARKET", take_profit_price, "true"⟩
  match client 0 with
  | none => ⟨[take_profit_req], .submissionError⟩
  | some tp =>
    let stop_loss_req : CondOrderRequest :=
      ⟨symbol, close_side, "STOP_MARKET", stop_loss_price, "true"⟩
    match client 1 with
    | none => ⟨[take_profit_req, stop_loss_req], .submissionError⟩
    | some sl => ⟨[take_profit_req, stop_loss_req], .ok tp sl⟩

/-- The price-logic check of `main` in `src/advanced/oco.py`, reached after
`validate_side` (so `side` is `"BUY"` or `"SELL"`): for `SELL` it raises
when `take_profit_price <= stop_loss_price`; otherwise (`BUY`) it raises
when `take_profit_price >= stop_loss_price`. -/
def oco_price_check (side : String)
    (take_profit_price stop_loss_price : ℚ) : Bool :=
  if side = "SELL" then decide (stop_loss_price < take_profit_price)
  else decide (take_profit_price < stop_loss_price)

/-- The flow of `main` after input validation: run the price-logic check and,
only when it passes, call `place_oco_style_orders`. -/
def oco_main {ρ : Type} (client : ℕ → Option ρ) (symbol side : String)
    (quantity take_profit_price stop_loss_price : ℚ) : OcoOutcome ρ :=
  if oco_price_check side take_profit_price stop_loss_price then
    place_oco_style_orders client symbol side quantity
      take_profit_price stop_loss_price
  else
    ⟨[], .validationError⟩

/-- C5: Both conditional orders submitted by `place_oco_style_orders`
carry exactly the input side (`close_side = side`, never inverted) and the
close-entire-position flag, and — the request type having no quantity
field — the outcome does not depend on the validated quantity argument at
all. -/
theorem oco_side_passthrough {ρ : Type} (client : ℕ → Option ρ)
    (symbol side : String) (q tp sl : ℚ) :
    (∀ a ∈ (place_oco_style_orders client symbol side q tp sl).attempts,
        a.side = side ∧ a.closePosition = "true") ∧
    (∀ q' : ℚ,
      place_oco_style_orders client symbol side q' tp sl =
        place_oco_style_orders client symbol side q tp sl) := by
  constructor
  · intro a ha
    unfold place_oco_style_orders at ha
    cases h0 : client 0 with
    | none =>
      rw [h0] at ha
      simp only [List.mem_singleton] at ha
      subst ha
      exact ⟨rfl, rfl⟩
    | some tpr =>
      rw [h0] at ha
      cases h1 : client 1 with
      | none =>
        rw [h1] at ha
        simp only [List.mem_cons, List.mem_singleton, List.not_mem_nil,
          or_false] at ha
        rcases ha with ha | ha <;> (subst ha; exact ⟨rfl, rfl⟩)
      | some slr =>
        rw [h1] at ha
        simp only [List.mem_cons, List.mem_singleton, List.not_mem_nil,
          or_false] at ha
        rcases ha with ha | ha <;> (subst ha; exact ⟨rfl, rfl⟩)
  · intro q'
    rfl

/-- Witness for `oco_side_passthrough`: the take-profit request of a
successful run carries side `SELL` and the close-position flag. -/
theorem oco_side_passthrough_witness :
    (⟨"BTCUSDT", "SELL", "TAKE_PROFIT_MARKET", 52000, "true"⟩ :
        CondOrderRequest).side = "SELL" ∧
    (⟨"BTCUSDT", "SELL", "TAKE_PROFIT_MARKET", 52000, "true"⟩ :
        CondOrderRequest).closePosition = "true" :=
  (oco_side_passthrough (fun _ => some 0) "BTCUSDT" "SELL" 1 52000 50000).1
    ⟨"BTCUSDT", "SELL", "TAKE_PROFIT_MARKET", 52000, "true"⟩
    (List.mem_cons_self _ _)

/-- C7: the executor `place_oco_style_orders` always submits the take-profit
conditional order first, and when that submission fails the stop-loss
order is never attempted: the trace is the single take-profit request and
the failure propagates. -/
theorem oco_tp_before_sl {ρ : Type} (client : ℕ → Option ρ)
    (symbol side : String) (q tp sl : ℚ) :
    (place_oco_style_orders client symbol side q tp sl).attempts.head? =
      some ⟨symbol, side, "TAKE_PROFIT_MARKET", tp, "true"⟩ ∧
    (client 0 = none →
      (place_oco_style_orders client symbol side q tp sl).attempts =
        [⟨symbol, side, "TAKE_PROFIT_MARKET", tp, "true"⟩] ∧
      (place_oco_style_orders client symbol side q tp sl).result =
        OcoResult.submissionError) := by
  constructor
  · unfold place_oco_style_orders
    cases h0 : client 0 with
    | none => rfl
    | some tpr =>
      cases h1 : client 1 with
      | none => rfl
      | some slr => rfl
  · intro h0
    unfold place_oco_style_orders
    rw [h0]
    exact ⟨rfl, rfl⟩

/-- Witness for `oco_tp_before_sl`: a client whose first submission fails
leaves exactly one attempted request. -/
theorem oco_tp_before_sl_witness :
    (place_oco_style_orders (fun _ => (none : Option ℕ)) "BTCUSDT" "SELL"
        1 52000 50000).attempts =
      [⟨"BTCUSDT", "SELL", "TAKE_PROFIT_MARKET", 52000, "true"⟩] :=
  ((oco_tp_before_sl (fun _ => (none : Option ℕ)) "BTCUSDT" "SELL"
    1 52000 50000).2 rfl).1

/-- C6: The pre-submission price-logic check of `main`: for close side
`SELL` acceptance is exactly `stop_loss < take_profit` (so
`take_profit = 52000, stop_loss = 50000` is accepted and
`take_profit = 49000, stop_loss = 50000` is rejected), for close side
`BUY` acceptance is exactly `take_profit < stop_loss`; and when the check
fails, `main` raises the validation error before any submission: zero
orders are attempted. -/
theorem oco_price_logic (ρ : Type) (side : String) (tp sl : ℚ) :
    (side = "SELL" → (oco_price_check side tp sl = true ↔ sl < tp)) ∧
    (side = "BUY" → (oco_price_check side tp sl = true ↔ tp < sl)) ∧
    (∀ (client : ℕ → Option ρ) (symbol : String) (q : ℚ),
      oco_price_check side tp sl = false →
      (oco_main client symbol side q tp sl).attempts = [] ∧
      (oco_main client symbol side q tp sl).result =
        OcoResult.validationError) ∧
    oco_price_check "SELL" 52000 50000 = true ∧
    oco_price_check "SELL" 49000 50000 = false := by
  refine ⟨?_, ?_, ?_, by decide, by decide⟩
  · intro hside
    subst hside
    simp [oco_price_check]
  · intro hside
    subst hside
    simp [oco_price_check]
  · intro client symbol q hfalse
    unfold oco_main
    rw [hfalse]
    exact ⟨rfl, rfl⟩

/-- Witness for `oco_price_logic`: the rejected SELL configuration
(`take_profit = 49000 < stop_loss = 50000`) causes zero submissions even
with an always-succeeding client. -/
theorem oco_price_logic_witness :
    (oco_main (fun _ => some 0) "BTCUSDT" "SELL" 1 49000 50000).attempts =
      ([] : List CondOrderRequest) :=
  ((oco_price_logic ℕ "SELL" 49000 50000).2.2.1 (fun _ => some 0)
    "BTCUSDT" 1 (by decide)).1

/-! ## Validators (`src/utils.py`) -/

/-- The ASCII whitespace characters removed by Python's `str.strip()`. -/
def isPySpace (c : Char) : Bool :=
  c = ' ' || c = '\t' || c = '\n' || c = '\r' || c = '\x0b' || c = '\x0c'

/-- Python's `str.strip()` on a character list: drop leading and trailing
whitespace. -/
def stripChars (l : List Char) : List Char :=
  ((l.dropWhile isPySpace).reverse.dropWhile isPySpace).reverse

/-- Python's `str.upper()` on a character list (ASCII case mapping, which
covers the symbol alphabet). -/
def pyUpper (l : List Char) : List Char := l.map Char.toUpper

/-- From `src/utils.py`, `validate_symbol`: reject the empty string, then
normalise with `upper().strip()`, then reject unless the result ends in
`USDT` and has length at least 5. -/
def validate_symbol (symbol : String) : Option String :=
  if symbol = "" then none
  else
    let s : List Char := stripChars (pyUpper symbol.data)
    if "USDT".data.isSuffixOf s then
      if s.length < 5 then none
      else some (String.mk s)
    else none

theorem char_toNat_ofNat_lt {m : ℕ} (h : m < 0xd800) :
    (Char.ofNat m).toNat = m := by
  rw [Char.ofNat, dif_pos (Or.inl h)]
  rfl

/-- ASCII uppercasing is idempotent. -/
theorem toUpper_idem (c : Char) : c.toUpper.toUpper = c.toUpper := by
  unfold Char.toUpper
  by_cases h : c.toNat ≥ 97 ∧ c.toNat ≤ 122
  · rw [if_pos h]
    have hv : (Char.ofNat (c.toNat - 32)).toNat = c.toNat - 32 :=
      char_toNat_ofNat_lt (by omega)
    rw [if_neg (by rw [hv]; omega)]
  · rw [if_neg h, if_neg h]

theorem map_eq_self_of_fixed {α : Type} {f : α → α} {l : List α}
    (h : ∀ a ∈ l, f a = a) : l.map f = l := by
  induction l with
  | nil => rfl
  | cons x xs ih =>
    rw [List.map_cons, h x (by simp), ih (fun a ha => h a (by simp [ha]))]

theorem mem_of_mem_stripChars {a : Char} {l : List Char}
    (h : a ∈ stripChars l) : a ∈ l := by
  unfold stripChars at h
  rw [List.mem_reverse] at h
  have h2 := (List.dropWhile_sublist isPySpace).subset h
  rw [List.mem_reverse] at h2
  exact (List.dropWhile_sublist isPySpace).subset h2

theorem dropWhile_eq_self_of_head_neg {p : Char → Bool} {l : List Char}
    (h : ∀ w : l ≠ [], p (l.head w) = false) : l.dropWhile p = l := by
  cases l with
  | nil => rfl
  | cons x xs =>
    exact List.dropWhile_cons_of_neg (by simpa using h (by simp))

/-- Stripping is idempotent. -/
theorem stripChars_stripChars (l : List Char) :
    stripChars (stripChars l) = stripChars l := by
  set A := l.dropWhile isPySpace with hA
  set B := A.reverse.dropWhile isPySpace with hB
  have hRA : B.reverse <+: A := by
    have hs : B <:+ A.reverse := List.dropWhile_suffix _
    have := hs.reverse
    rwa [List.reverse_reverse] at this
  have hdropR : B.reverse.dropWhile isPySpace = B.reverse := by
    apply dropWhile_eq_self_of_head_neg
    intro w
    rw [hRA.head w]
    exact List.head_dropWhile_not isPySpace l _
  have hdropB : B.dropWhile isPySpace = B := by
    apply dropWhile_eq_self_of_head_neg
    intro w
    exact List.head_dropWhile_not isPySpace A.reverse _
  show ((B.reverse.dropWhile isPySpace).reverse.dropWhile isPySpace).reverse
      = B.reverse
  rw [hdropR, List.reverse_reverse, hdropB]

/-- C9: the validator `validate_symbol` is idempotent — any accepted result is
accepted again unchanged — and it rejects `"BTC"`, `"BTCUSD"` and the
empty string. -/
theorem validate_symbol_idempotent :
    (∀ s r : String, validate_symbol s = some r →
      validate_symbol r = some r) ∧
    validate_symbol "BTC" = none ∧
    validate_symbol "BTCUSD" = none ∧
    validate_symbol "" = none := by
  refine ⟨?_, by decide, by decide, by decide⟩
  intro s r h
  unfold validate_symbol at h
  by_cases hs : s = ""
  · rw [if_pos hs] at h
    exact absurd h (by simp)
  rw [if_neg hs] at h
  simp only at h
  by_cases hsuf : ("USDT".data.isSuffixOf (stripChars (pyUpper s.data)))
  · rw [if_pos hsuf] at h
    by_cases hlen : (stripChars (pyUpper s.data)).length < 5
    · rw [if_pos hlen] at h
      exact absurd h (by simp)
    · rw [if_neg hlen] at h
      have hr : r = String.mk (stripChars (pyUpper s.data)) :=
        (Option.some_inj.mp h).symm
      set t := stripChars (pyUpper s.data) with htdef
      have hupper : pyUpper t = t := by
        apply map_eq_self_of_fixed
        intro a ha
        have : a ∈ pyUpper s.data := mem_of_mem_stripChars ha
        obtain ⟨b, _, hb⟩ := List.mem_map.mp this
        rw [← hb, toUpper_idem]
      have hstrip : stripChars t = t := stripChars_stripChars _
      have hne : String.mk t ≠ "" := by
        intro he
        have : t = [] := congrArg String.data he
        rw [this] at hlen
        exact hlen (by simp)
      rw [hr]
      unfold validate_symbol
      rw [if_neg hne]
      simp only [hupper, hstrip]
      rw [if_pos hsuf, if_neg hlen]
  · rw [if_neg hsuf] at h
    exact absurd h (by simp)

/-- Witness for `validate_symbol_idempotent`: the already-normalised
symbol `BTCUSDT` validates to itself. -/
theorem validate_symbol_idempotent_witness :
    validate_symbol "BTCUSDT" = some "BTCUSDT" :=
  validate_symbol_idempotent.1 " btcusdt " "BTCUSDT" (by decide)

/-! ### Python `float()` and the numeric validators

`validate_quantity` and `validate_price` call Python's builtin
`float(str)`.  The model below implements CPython's string-to-float
grammar — optional surrounding whitespace, optional sign, `inf`,
`infinity`, `nan` (case-insensitive) or a decimal literal with optional
fraction part, exponent and single underscores between digits — over the
common (ASCII) character set.  The numeric value is kept as an exact
rational rather than rounded to binary64. -/

/-- A value of Python's `float`: a finite value (kept exact), a signed
infinity, or NaN. -/
inductive PyFloat where
  | finite (q : ℚ)
  | inf (neg : Bool)
  | nan
deriving DecidableEq, Repr

/-- Python's `x <= 0` for a float `x`: `-inf <= 0` is true, `+inf <= 0`
is false, and any comparison with NaN is false. -/
def PyFloat.le_zero : PyFloat → Bool
  | .finite q => decide (q ≤ 0)
  | .inf neg => neg
  | .nan => false

/-- Python's `math.isfinite`: true exactly on finite values. -/
def PyFloat.isFinite : PyFloat → Bool
  | .finite _ => true
  | _ => false

/-- Scan a run of decimal digits in which a single underscore may stand
between two digits; returns the digit values and the unconsumed rest. -/
def digitRun : List Char → List ℕ → (List ℕ × List Char)
  | c :: cs, acc =>
    if c.isDigit then digitRun cs (acc ++ [c.toNat - 48])
    else if c = '_' then
      match cs with
      | d :: cs' =>
        if d.isDigit then digitRun cs' (acc ++ [d.toNat - 48])
        else (acc, c :: cs)
      | [] => (acc, [c])
    else (acc, c :: cs)
  | [], acc => (acc, [])

/-- A digit run that must start with a digit (underscores may not lead). -/
def parseDigits (l : List Char) : Option (List ℕ × List Char) :=
  match l with
  | c :: _ => if c.isDigit then some (digitRun l []) else none
  | [] => none

/-- Value of a digit list read in base 10. -/
def natOfDigits (ds : List ℕ) : ℕ := ds.foldl (fun a d => 10 * a + d) 0

/-- Value of `⟨int digits⟩.⟨fraction digits⟩`. -/
def decimalVal (ds fs : List ℕ) : ℚ :=
  (natOfDigits ds : ℚ) + (natOfDigits fs : ℚ) / (10 : ℚ) ^ fs.length

/-- Optional exponent: `e`/`E`, optional sign, digit run.  A malformed
exponent is left unconsumed, so the caller rejects it as trailing
garbage, as CPython does. -/
def parseExp (v : ℚ) (l : List Char) : ℚ × List Char :=
  match l with
  | c :: rest =>
    if c = 'e' ∨ c = 'E' then
      let sgn : Bool × List Char :=
        match rest with
        | '+' :: r => (false, r)
        | '-' :: r => (true, r)
        | _ => (false, rest)
      match parseDigits sgn.2 with
      | some (es, rest3) =>
        let e := natOfDigits es
        (if sgn.1 then v / (10 : ℚ) ^ e else v * (10 : ℚ) ^ e, rest3)
      | none => (v, c :: rest)
    else (v, c :: rest)
  | [] => (v, [])

/-- The decimal literal: `digits [. [digits]] [exp]` or `. digits [exp]`. -/
def parseNumeric (l : List Char) : Option (ℚ × List Char) :=
  match parseDigits l with
  | some (ds, rest) =>
    match rest with
    | '.' :: rest2 =>
      match parseDigits rest2 with
      | some (fs, rest3) => some (parseExp (decimalVal ds fs) rest3)
      | none => some (parseExp (decimalVal ds []) rest2)
    | _ => some (parseExp (decimalVal ds []) rest)
  | none =>
    match l with
    | '.' :: rest2 =>
      match parseDigits rest2 with
      | some (fs, rest3) => some (parseExp (decimalVal [] fs) rest3)
      | none => none
    | _ => none

/-- Python's `float(str)`: strip whitespace, read an optional sign, then
either one of the special words `inf`/`infinity`/`nan` (case-insensitive)
or a decimal literal consuming the whole remainder. -/
def pyFloatOfString (str : String) : Option PyFloat :=
  let l := stripChars str.data
  let sgn : Bool × List Char :=
    match l with
    | '-' :: rest => (true, rest)
    | '+' :: rest => (false, rest)
    | _ => (false, l)
  let low := sgn.2.map Char.toLower
  if low = "inf".data ∨ low = "infinity".data then some (.inf sgn.1)
  else if low = "nan".data then some .nan
  else
    match parseNumeric sgn.2 with
    | some (v, []) => some (.finite (if sgn.1 then -v else v))
    | _ => none

/-- From `src/utils.py`, `validate_quantity`: `float(quantity)` — raising
on an unparseable string — then reject when the value is `<= 0`. -/
def validate_quantity (quantity : String) : Option PyFloat :=
  match pyFloatOfString quantity with
  | none => none
  | some qty => if qty.le_zero then none else some qty

/-- From `src/utils.py`, `validate_price`: identical check on the price
string. -/
def validate_price (price : String) : Option PyFloat :=
  match pyFloatOfString price with
  | none => none
  | some prc => if prc.le_zero then none else some prc

/-- C8 counterexample: The validators can return non-finite values:
Python's `float` parses `"inf"` and `"nan"`, and neither `+inf <= 0` nor
`nan <= 0` holds, so `validate_quantity "inf"` succeeds with `+∞` and
`validate_price "nan"` succeeds with NaN. -/
theorem validate_quantity_returns_inf :
    validate_quantity "inf" = some (PyFloat.inf false) ∧
    validate_price "nan" = some PyFloat.nan ∧
    (PyFloat.inf false).isFinite = false ∧
    PyFloat.nan.isFinite = false :=
  ⟨rfl, rfl, rfl, rfl⟩

/-- C8 amended: `validate_quantity` and `validate_price` implement
the same check; they fail exactly when the input does not parse as a
Python float or parses to a value `<= 0` (NaN, for which the comparison is
false, passes); otherwise they return the parsed value.  Every finite
returned value is strictly positive, but non-finite values can be
returned.  They reject `"0"`, `"-5"`, `"abc"` and accept `"0.01"`,
returning exactly `1/100`. -/
theorem validate_quantity_spec :
    (∀ s : String, validate_price s = validate_quantity s) ∧
    (∀ s : String,
      validate_quantity s = none ↔
        (pyFloatOfString s = none ∨
         ∃ v, pyFloatOfString s = some v ∧ v.le_zero = true)) ∧
    (∀ s v, validate_quantity s = some v →
      pyFloatOfString s = some v ∧ v.le_zero = false) ∧
    (∀ s q, validate_quantity s = some (PyFloat.finite q) → 0 < q) ∧
    validate_quantity "0" = none ∧
    validate_quantity "-5" = none ∧
    validate_quantity "abc" = none ∧
    validate_quantity "0.01" = some (PyFloat.finite (1/100)) := by
  have hmain : ∀ s v, validate_quantity s = some v →
      pyFloatOfString s = some v ∧ v.le_zero = false := by
    intro s v h
    unfold validate_quantity at h
    cases hp : pyFloatOfString s with
    | none => rw [hp] at h; exact absurd h (by simp)
    | some w =>
      rw [hp] at h
      replace h : (if w.le_zero = true then none else some w) = some v := h
      by_cases hz : w.le_zero
      · rw [if_pos hz] at h; exact absurd h (by simp)
      · rw [if_neg hz] at h
        have hw : w = v := Option.some_inj.mp h
        subst hw
        exact ⟨rfl, by simpa using hz⟩
  refine ⟨fun s => rfl, ?_, hmain, ?_, ?_, ?_, rfl, ?_⟩
  · intro s
    unfold validate_quantity
    cases hp : pyFloatOfString s with
    | none => simp
    | some w =>
      by_cases hz : w.le_zero
      · simp [hz]
      · simp [hz]
  · intro s q h
    have := (hmain s _ h).2
    simp only [PyFloat.le_zero, decide_eq_false_iff_not, not_le] at this
    exact this
  · have hp : pyFloatOfString "0" = some (.finite (decimalVal [0] [])) := rfl
    unfold validate_quantity
    rw [hp]
    have hle : (PyFloat.finite (decimalVal [0] [])).le_zero = true := by
      simp only [PyFloat.le_zero, decide_eq_true_eq]
      norm_num [decimalVal, natOfDigits]
    show (if (PyFloat.finite (decimalVal [0] [])).le_zero = true then none
        else some (PyFloat.finite (decimalVal [0] []))) = none
    rw [hle]
    rfl
  · have hp : pyFloatOfString "-5" =
        some (.finite (-(decimalVal [5] []))) := rfl
    unfold validate_quantity
    rw [hp]
    have hle : (PyFloat.finite (-(decimalVal [5] []))).le_zero = true := by
      simp only [PyFloat.le_zero, decide_eq_true_eq]
      norm_num [decimalVal, natOfDigits]
    show (if (PyFloat.finite (-(decimalVal [5] []))).le_zero = true then none
        else some (PyFloat.finite (-(decimalVal [5] [])))) = none
    rw [hle]
    rfl
  · have hp : pyFloatOfString "0.01" =
        some (.finite (decimalVal [0] [0, 1])) := rfl
    unfold validate_quantity
    rw [hp]
    have hle : (PyFloat.finite (decimalVal [0] [0, 1])).le_zero = false := by
      simp only [PyFloat.le_zero, decide_eq_false_iff_not, not_le]
      norm_num [decimalVal, natOfDigits]
    have hval : decimalVal [0] [0, 1] = 1/100 := by
      norm_num [decimalVal, natOfDigits]
    show (if (PyFloat.finite (decimalVal [0] [0, 1])).le_zero = true then none
        else some (PyFloat.finite (decimalVal [0] [0, 1]))) =
      some (PyFloat.finite (1/100))
    rw [hle, hval]
    rfl

/-- Witness for `validate_quantity_spec`: the accepted input `"0.01"`
parses to the positive finite value `1/100`. -/
theorem validate_quantity_spec_witness :
    (0 : ℚ) < 1/100 :=
  validate_quantity_spec.2.2.2.1 "0.01" (1/100)
    validate_quantity_spec.2.2.2.2.2.2.2

end BinanceBot
